import Mathlib

/-!
Verification development for the d-CGP core (dCGP expression graphs, the
weighted/biased ANN extension `expression_ann`, and the memetic
multi-objective search `momes4cgp`).

The C++ sources embedded here are `expression_ann.hpp` (forward evaluation,
backpropagation `d_loss`, stochastic gradient descent `sgd`, weight/bias
setters) and `momes4cgp.hpp` (constructor, `evolve` preamble, the Newton
refinement of the ephemeral constants, and the diversity insertion test).

The base class `expression` (file expression.hpp) is not among the available
sources; the pieces of it that the embedded functions consume (the chromosome
encoding layout `gene_idx`, the active-node computation and the kernel
callables for doubles) are modelled from the specification and are marked
`Modelled from the spec:` in their doc comments.  Everything else is a direct
translation of the C++ code.

Machine doubles are modelled by the elements of a linear ordered field
(instantiated at ℚ for executable checks and at ℝ for the transcendental
kernels); the Eigen LU factorisation object used by the Newton step is kept
abstract, as Eigen is an external library.
-/

namespace DCGP

/-- The data of an `expression_ann<T>` object: the graph hyperparameters and
chromosome of the base class `expression` plus the two dense vectors
`m_weights` and `m_biases` added by `expression_ann`.  `fnames` records the
names of the kernels of the kernel set (the function gene of a node indexes
into it); the kernel callables themselves are passed separately to the
evaluation functions. -/
structure expression_ann (α : Type) where
  n : ℕ
  m : ℕ
  r : ℕ
  c : ℕ
  arities : List ℕ
  x : List ℕ
  fnames : List String
  weights : List α
  biases : List α

namespace expression_ann

variable {α : Type} [LinearOrderedField α]

/-- Number of non-virtual nodes: `n + r * c` (inputs plus internal nodes). -/
def nNodes (e : expression_ann α) : ℕ := e.n + e.r * e.c

/-- Modelled from the spec: internal nodes are numbered column-major, so the
column of internal node `id` is `(id - n) / r`. -/
def colOf (e : expression_ann α) (id : ℕ) : ℕ := (id - e.n) / e.r

/-- Modelled from the spec: per-column arity of the node (the base class
`get_arity(node_id)`). -/
def arityOf (e : expression_ann α) (id : ℕ) : ℕ := e.arities.getD (colOf e id) 0

/-- Modelled from the spec: the base class vector `m_gene_idx`; position in the
chromosome of the function gene of internal node `id`.  Each internal node
occupies `arity + 1` genes (one function gene then `arity` connection genes),
nodes being laid out in increasing id order. -/
def geneIdx (e : expression_ann α) (id : ℕ) : ℕ :=
  ((List.range (id - e.n)).map (fun k => arityOf e (e.n + k) + 1)).sum

/-- Start of the weights of node `id` in `m_weights` (the source computes it as
`gene_idx[id] - (id - n)`). -/
def wIdxOf (e : expression_ann α) (id : ℕ) : ℕ := geneIdx e id - (id - e.n)

/-- Index of the bias of node `id` in `m_biases` (`id - n` in the source). -/
def bIdxOf (e : expression_ann α) (id : ℕ) : ℕ := id - e.n

/-- The function gene of internal node `id`. -/
def fgene (e : expression_ann α) (id : ℕ) : ℕ := e.x.getD (geneIdx e id) 0

/-- The `j`-th connection gene of internal node `id` (position
`gene_idx[id] + 1 + j` in the chromosome, as read by the source). -/
def cgene (e : expression_ann α) (id j : ℕ) : ℕ := e.x.getD (geneIdx e id + 1 + j) 0

/-- Kernel name selected by the function gene of node `id`. -/
def fnameOf (e : expression_ann α) (id : ℕ) : String := e.fnames.getD (fgene e id) ""

/-- The `i`-th output gene (position `x.length - m + i`, as read by the source). -/
def ogene (e : expression_ann α) (i : ℕ) : ℕ := e.x.getD (e.x.length - e.m + i) 0

/-- Modelled from the spec: one layer of the backward breadth-first expansion in
the active-node computation: every member that is an internal node contributes
its connection genes. -/
def activeStep (e : expression_ann α) (s : List ℕ) : List ℕ :=
  (s ++ s.flatMap fun id =>
    if e.n ≤ id then (List.range (arityOf e id)).map (cgene e id) else []).dedup

/-- Modelled from the spec: the active nodes, i.e. the transitive closure of the
output selectors' dependencies, deduplicated and sorted by node index.  The
closure is reached after at most `nNodes` expansion layers. -/
def activeNodes (e : expression_ann α) : List ℕ :=
  (List.range (nNodes e)).filter
    (fun v => v ∈ (activeStep e)^[nNodes e] ((List.range e.m).map (ogene e)))

/-- Gather the arity-many source values of node `id` from the node array
(`function_in[j] = node[x[g_idx + j + 1]]` in `fill_nodes`). -/
def gatherIns (e : expression_ann α) (node : ℕ → α) (id : ℕ) : List α :=
  (List.range (arityOf e id)).map (fun j => node (cgene e id j))

/-- First half of `kernel_call`: multiply each input by its weight
(`function_in[j] = function_in[j] * m_weights[weight_idx + j]`). -/
def weightIns (e : expression_ann α) (vs : List α) (wIdx : ℕ) : List α :=
  vs.mapIdx (fun j v => v * e.weights.getD (wIdx + j) 0)

/-- Second half of `kernel_call`: add the node bias into the first input slot
(`function_in[0] += m_biases[bias_idx]`). -/
def addBias (e : expression_ann α) (vs : List α) (bIdx : ℕ) : List α :=
  vs.set 0 (vs.getD 0 0 + e.biases.getD bIdx 0)

/-- The list handed to the kernel callable for node `id`: weighted inputs with
the bias folded into slot 0. -/
def nodeIns (e : expression_ann α) (node : ℕ → α) (id : ℕ) : List α :=
  addBias e (weightIns e (gatherIns e node id) (wIdxOf e id)) (bIdxOf e id)

/-- The member `kernel_call` for numeric types: weigh the inputs, add the bias
to slot 0, then apply the kernel callable named by the node's function gene.
`ke` maps a kernel name to its numeric callable. -/
def kernel_call (ke : String → List α → α) (e : expression_ann α) (node : ℕ → α)
    (id : ℕ) : α :=
  ke (fnameOf e id) (nodeIns e node id)

/-- The local activation derivative stored by the backprop variant of
`fill_nodes`, dispatched on the kernel name exactly as in the source; `fin` is
the (weighted, biased) kernel input list, whose sum is the value `cumin` the
source accumulates for the ISRU case.  A kernel with any other name leaves the
zero-initialised entry in place, which the catch-all 0 reproduces. -/
def dnodeLocal (name : String) (nodeVal : α) (fin : List α) : α :=
  if name = "sig" then nodeVal * (1 - nodeVal)
  else if name = "tanh" then 1 - nodeVal * nodeVal
  else if name = "ReLu" then (if 0 < nodeVal then 1 else 0)
  else if name = "ELU" then (if 0 < nodeVal then 1 else nodeVal + 1)
  else if name = "ISRU" then nodeVal * nodeVal * nodeVal / fin.sum / fin.sum / fin.sum
  else 0

/-- One iteration of the loop of the backprop variant of `fill_nodes`: an input
node copies the input point (and stores a bogus 0 derivative), an internal node
stores its `kernel_call` value and its local activation derivative. -/
def fillStep (ke : String → List α → α) (e : expression_ann α) (point : List α)
    (s : (ℕ → α) × (ℕ → α)) (id : ℕ) : (ℕ → α) × (ℕ → α) :=
  if id < e.n then
    (Function.update s.1 id (point.getD id 0), Function.update s.2 id 0)
  else
    let fin := nodeIns e s.1 id
    let nv := ke (fnameOf e id) fin
    (Function.update s.1 id nv, Function.update s.2 id (dnodeLocal (fnameOf e id) nv fin))

/-- The backprop variant of `fill_nodes`: walk the active nodes in ascending
order filling the `node` and `d_node` arrays (both zero-initialised by the
caller `d_loss`).  The plain variant used by `operator()` computes the same
`node` component. -/
def fill_nodes (ke : String → List α → α) (e : expression_ann α) (point : List α) :
    (ℕ → α) × (ℕ → α) :=
  (activeNodes e).foldl (fillStep ke e point) (fun _ => 0, fun _ => 0)

/-- The call operator `operator()(point)`: run `fill_nodes` and read the values
selected by the output genes. -/
def call (ke : String → List α → α) (e : expression_ann α) (point : List α) : List α :=
  (List.range e.m).map (fun i => (fill_nodes ke e point).1 (ogene e i))

theorem nodeIns_congr (e : expression_ann α) {f g : ℕ → α} (id : ℕ)
    (h : ∀ j < arityOf e id, f (cgene e id j) = g (cgene e id j)) :
    nodeIns e f id = nodeIns e g id := by
  unfold nodeIns gatherIns
  congr 2
  exact List.map_congr_left (fun j hj => h j (List.mem_range.mp hj))

theorem fill_nodes_untouched (ke : String → List α → α) (e : expression_ann α)
    (point : List α) (l : List ℕ) (s : (ℕ → α) × (ℕ → α)) (v : ℕ) (hv : v ∉ l) :
    (l.foldl (fillStep ke e point) s).1 v = s.1 v ∧
    (l.foldl (fillStep ke e point) s).2 v = s.2 v := by
  induction l generalizing s with
  | nil => exact ⟨rfl, rfl⟩
  | cons a t ih =>
    have hva : v ≠ a := fun h => hv (h ▸ List.mem_cons_self a t)
    have hvt : v ∉ t := fun h => hv (List.mem_cons_of_mem a h)
    obtain ⟨h1, h2⟩ := ih (fillStep ke e point s a) hvt
    simp only [List.foldl_cons]
    refine ⟨h1.trans ?_, h2.trans ?_⟩ <;>
      by_cases hc : a < e.n <;>
        simp [fillStep, hc, Function.update_noteq hva]

/-- After the `fill_nodes` walk over a strictly ascending node list, every input
node holds the input point value (with a 0 derivative slot) and every internal
node whose connection genes point strictly below it holds its `kernel_call`
value and the matching local activation derivative, both expressed in terms of
the final node array. -/
theorem fill_nodes_final_spec (ke : String → List α → α) (e : expression_ann α)
    (point : List α) (l : List ℕ) (s : (ℕ → α) × (ℕ → α))
    (hl : l.Pairwise (· < ·)) :
    ∀ id ∈ l,
      (id < e.n → (l.foldl (fillStep ke e point) s).1 id = point.getD id 0 ∧
                  (l.foldl (fillStep ke e point) s).2 id = 0) ∧
      (e.n ≤ id → (∀ j < arityOf e id, cgene e id j < id) →
        (l.foldl (fillStep ke e point) s).1 id
          = ke (fnameOf e id) (nodeIns e (l.foldl (fillStep ke e point) s).1 id) ∧
        (l.foldl (fillStep ke e point) s).2 id
          = dnodeLocal (fnameOf e id) ((l.foldl (fillStep ke e point) s).1 id)
              (nodeIns e (l.foldl (fillStep ke e point) s).1 id)) := by
  induction l generalizing s with
  | nil => intro id hid; cases hid
  | cons a t ih =>
    intro id hid
    have hat : ∀ b ∈ t, a < b := fun b hb => (List.pairwise_cons.mp hl).1 b hb
    rcases List.mem_cons.mp hid with rfl | hmem
    · -- head case: the node is written by the first step and never touched again
      have hanot : id ∉ t := fun h => lt_irrefl id (hat id h)
      obtain ⟨hu1, hu2⟩ := fill_nodes_untouched ke e point t
        (fillStep ke e point s id) id hanot
      simp only [List.foldl_cons]
      constructor
      · intro hlt
        rw [hu1, hu2]
        simp [fillStep, hlt]
      · intro hge hsrc
        have hsources : ∀ j < arityOf e id,
            (t.foldl (fillStep ke e point) (fillStep ke e point s id)).1 (cgene e id j)
              = s.1 (cgene e id j) := by
          intro j hj
          have hlt : cgene e id j < id := hsrc j hj
          have hnot : cgene e id j ∉ t := fun h =>
            absurd (hat _ h) (not_lt.mpr hlt.le)
          have := (fill_nodes_untouched ke e point t
            (fillStep ke e point s id) (cgene e id j) hnot).1
          rw [this]
          simp [fillStep, not_lt.mpr hge, Function.update_noteq hlt.ne]
        have hIns : nodeIns e
            (t.foldl (fillStep ke e point) (fillStep ke e point s id)).1 id
              = nodeIns e s.1 id :=
          nodeIns_congr e id hsources
        rw [hu1, hu2, hIns]
        simp [fillStep, not_lt.mpr hge]
    · -- id in the tail: use the induction hypothesis from the updated state
      simpa only [List.foldl_cons] using
        ih (fillStep ke e point s a) (List.Pairwise.of_cons hl) id hmem

omit [LinearOrderedField α] in
/-- The active node list is strictly ascending (it is a filter of a range). -/
theorem activeNodes_pairwise (e : expression_ann α) :
    (activeNodes e).Pairwise (· < ·) :=
  (List.pairwise_lt_range _).filter _

/-- The pre-activation of node `id`: its bias plus the weighted sum of its
gathered source values. -/
def preact (e : expression_ann α) (node : ℕ → α) (id : ℕ) : α :=
  e.biases.getD (bIdxOf e id) 0
    + ∑ j ∈ Finset.range (arityOf e id),
        e.weights.getD (wIdxOf e id + j) 0 * node (cgene e id j)

omit [LinearOrderedField α] in
theorem mapIdx_map_range {β : Type} (g : ℕ → α → β) (f : ℕ → α) (a : ℕ) :
    ((List.range a).map f).mapIdx g = (List.range a).map (fun j => g j (f j)) := by
  induction a with
  | zero => rfl
  | succ k ih =>
    rw [List.range_succ, List.map_append, List.map_append]
    simp only [List.map_cons, List.map_nil]
    rw [List.mapIdx_append_one, ih]
    simp

theorem sum_map_list_range (f : ℕ → α) (a : ℕ) :
    ((List.range a).map f).sum = ∑ j ∈ Finset.range a, f j := by
  induction a with
  | zero => simp
  | succ k ih =>
    rw [List.range_succ, List.map_append, List.sum_append, Finset.sum_range_succ, ih]
    simp

theorem addBias_sum (e : expression_ann α) (vs : List α) (bIdx : ℕ) (h : vs ≠ []) :
    (addBias e vs bIdx).sum = e.biases.getD bIdx 0 + vs.sum := by
  cases vs with
  | nil => exact absurd rfl h
  | cons v t => simp [addBias]; ring

/-- For a node of arity at least 1, the sum of the kernel input list equals the
pre-activation: the bias plus the weighted sum of the gathered sources. -/
theorem nodeIns_sum (e : expression_ann α) (node : ℕ → α) (id : ℕ)
    (h : 1 ≤ arityOf e id) :
    (nodeIns e node id).sum = preact e node id := by
  unfold nodeIns gatherIns preact
  rw [weightIns, mapIdx_map_range, addBias_sum, sum_map_list_range]
  · simp only [mul_comm]
  · intro hnil
    have := congrArg List.length hnil
    simp at this
    omega

end expression_ann

/-- Modelled from the spec: the numeric callables of the five activation
kernels admitted by the `expression_ann` constructor (the kernel definitions
live in a header that is not among the sources).  A kernel receives the
weighted inputs with the bias already folded in and applies its activation to
their sum. -/
noncomputable def actOf : String → ℝ → ℝ
  | "tanh" => Real.tanh
  | "sig" => fun z => 1 / (1 + Real.exp (-z))
  | "ReLu" => fun z => max z 0
  | "ELU" => fun z => if 0 < z then z else Real.exp z - 1
  | "ISRU" => fun z => z / Real.sqrt (1 + z * z)
  | _ => fun _ => 0

/-- Modelled from the spec: the kernel-name-to-callable map over machine
doubles, modelled on ℝ. -/
noncomputable def realKe : String → List ℝ → ℝ := fun s l => actOf s l.sum

end DCGP

namespace DCGP

namespace expression_ann

variable {α : Type} [LinearOrderedField α]

/-- The WeightedExpression of the spec's ANN-forward scenario: n=1, m=1, r=1,
c=2, L=1, arity=1, kernel set containing only tanh; for this shape the gene
bounds force the chromosome [0,0,0,1,2]; weights and biases as set by the
scenario. -/
noncomputable def ex5 : expression_ann ℝ :=
  ⟨1, 1, 1, 2, [1, 1], [0, 0, 0, 1, 2], ["tanh"], [0.1, 0.2], [0.3, 0.4]⟩

theorem actOf_tanh : actOf "tanh" = Real.tanh := rfl

theorem call_ex5 :
    call realKe ex5 [0.23] = [Real.tanh (0.4 + 0.2 * Real.tanh (0.23 * 0.1 + 0.3))] := by
  have ha : activeNodes ex5 = [0, 1, 2] := by decide
  unfold call fill_nodes
  rw [ha]
  norm_num [fillStep, ex5, fnameOf, fgene, geneIdx, arityOf, colOf, cgene, nodeIns,
    gatherIns, weightIns, addBias, wIdxOf, bIdxOf, ogene, dnodeLocal, realKe, actOf_tanh,
    Function.update, show List.range 1 = [0] from rfl]
  ring_nf

/-- C5: for every WeightedExpression over the double kernels, every input point
of the right size and every active internal node (whose connection genes point
strictly below it and whose arity is at least 1, as the encoding bounds and the
constructor guarantee), the node's value after the forward walk is the
activation applied to the pre-activation z = b + Σ w·v with the bias folded
into the first weighted input slot; in particular the spec's concrete tanh
network evaluates call([0.23])[0] to tanh(0.4 + 0.2·tanh(0.23·0.1 + 0.3))
to within 1e-13. -/
theorem C5_forward_rule :
    (∀ (e : expression_ann ℝ) (point : List ℝ) (id : ℕ),
      point.length = e.n → id ∈ activeNodes e → e.n ≤ id → 1 ≤ arityOf e id →
      (∀ j < arityOf e id, cgene e id j < id) →
      (fill_nodes realKe e point).1 id
        = actOf (fnameOf e id) (preact e (fill_nodes realKe e point).1 id)) ∧
    |(call realKe ex5 [0.23]).getD 0 0
        - Real.tanh (0.4 + 0.2 * Real.tanh (0.23 * 0.1 + 0.3))| ≤ 1e-13 := by
  constructor
  · intro e point id _ hid hge har hsrc
    have h := (fill_nodes_final_spec realKe e point (activeNodes e)
      (fun _ => 0, fun _ => 0) (activeNodes_pairwise e) id hid).2 hge hsrc
    rw [fill_nodes] at *
    rw [h.1]
    rw [realKe]
    rw [nodeIns_sum e _ id har]
  · rw [call_ex5]
    norm_num

/-- The forward rule instantiated on the concrete tanh network at node 2. -/
theorem C5_forward_rule_witness :
    (fill_nodes realKe ex5 [0.23]).1 2
      = actOf (fnameOf ex5 2) (preact ex5 (fill_nodes realKe ex5 [0.23]).1 2) :=
  C5_forward_rule.1 ex5 [0.23] 2 (by norm_num [ex5]) (by decide) (by decide)
    (by decide) (by decide)

theorem dnodeLocal_tanh (v : α) (fin : List α) : dnodeLocal "tanh" v fin = 1 - v * v := rfl

theorem dnodeLocal_sig (v : α) (fin : List α) : dnodeLocal "sig" v fin = v * (1 - v) := rfl

theorem dnodeLocal_ReLu (v : α) (fin : List α) :
    dnodeLocal "ReLu" v fin = if 0 < v then 1 else 0 := rfl

theorem dnodeLocal_ELU (v : α) (fin : List α) :
    dnodeLocal "ELU" v fin = if 0 < v then 1 else v + 1 := rfl

theorem dnodeLocal_ISRU (v : α) (fin : List α) :
    dnodeLocal "ISRU" v fin = v * v * v / fin.sum / fin.sum / fin.sum := rfl

/-- C6: during the forward pass of d_loss the stored local activation
derivative of an active internal node equals, in terms of the final node value
N and pre-activation sum s: 1 − N² for tanh, N·(1 − N) for sig, 1 if N > 0
else 0 for ReLu, 1 if N > 0 else N + 1 for ELU, and N³/s³ for ISRU. -/
theorem C6_local_derivatives (ke : String → List α → α) (e : expression_ann α)
    (point : List α) (id : ℕ) (hid : id ∈ activeNodes e) (hge : e.n ≤ id)
    (har : 1 ≤ arityOf e id) (hsrc : ∀ j < arityOf e id, cgene e id j < id) :
    (fnameOf e id = "tanh" →
      (fill_nodes ke e point).2 id
        = 1 - (fill_nodes ke e point).1 id * (fill_nodes ke e point).1 id) ∧
    (fnameOf e id = "sig" →
      (fill_nodes ke e point).2 id
        = (fill_nodes ke e point).1 id * (1 - (fill_nodes ke e point).1 id)) ∧
    (fnameOf e id = "ReLu" →
      (fill_nodes ke e point).2 id
        = if 0 < (fill_nodes ke e point).1 id then 1 else 0) ∧
    (fnameOf e id = "ELU" →
      (fill_nodes ke e point).2 id
        = if 0 < (fill_nodes ke e point).1 id then 1
          else (fill_nodes ke e point).1 id + 1) ∧
    (fnameOf e id = "ISRU" →
      (fill_nodes ke e point).2 id
        = (fill_nodes ke e point).1 id * (fill_nodes ke e point).1 id
            * (fill_nodes ke e point).1 id
          / (preact e (fill_nodes ke e point).1 id
              * preact e (fill_nodes ke e point).1 id
              * preact e (fill_nodes ke e point).1 id)) := by
  have h := (fill_nodes_final_spec ke e point (activeNodes e)
    (fun _ => 0, fun _ => 0) (activeNodes_pairwise e) id hid).2 hge hsrc
  rw [fill_nodes] at *
  refine ⟨fun hn => ?_, fun hn => ?_, fun hn => ?_, fun hn => ?_, fun hn => ?_⟩ <;>
    rw [h.2, hn]
  · rw [dnodeLocal_tanh]
  · rw [dnodeLocal_sig]
  · rw [dnodeLocal_ReLu]
  · rw [dnodeLocal_ELU]
  · rw [dnodeLocal_ISRU, nodeIns_sum e _ id har, div_div, div_div]
    ring

/-- A one-node ReLu network over ℚ used to exercise the theorems concretely. -/
def exq : expression_ann ℚ := ⟨1, 1, 1, 1, [1], [0, 0, 1], ["ReLu"], [1], [-1]⟩

/-- A computable stand-in kernel map over ℚ (the derivative bookkeeping of
fill_nodes is independent of the kernel callables). -/
def qSumKe : String → List ℚ → ℚ := fun _ l => l.sum

/-- The local-derivative dispatch instantiated on the concrete ℚ ReLu network. -/
theorem C6_local_derivatives_witness :
    (fill_nodes qSumKe exq [0]).2 1
      = if 0 < (fill_nodes qSumKe exq [0]).1 1 then 1 else 0 :=
  (C6_local_derivatives qSumKe exq [0] 1 (by decide) (by decide) (by decide)
    (by decide)).2.2.1 (by decide)

/-- The loss kinds of `expression_ann::loss_type`. -/
inductive loss_type where
  | MSE : loss_type
  | CE : loss_type

/-- The semantic oracle handed to the numeric routines: the kernel callables by
name, and the `std::exp` / `std::log` used by the cross-entropy branch.
Modelled from the spec: these live in headers that are not among the sources. -/
structure Sem (α : Type) where
  ke : String → List α → α
  expf : α → α
  logf : α → α

/-- The virtual per-output sensitivities appended to `d_node` by the MSE branch
of `d_loss`: the source pushes `2 * (node[out_i] - prediction[i])`. -/
def mseSeeds (e : expression_ann α) (node : ℕ → α) (label : List α) : List α :=
  (List.range e.m).map (fun i => 2 * (node (ogene e i) - label.getD i 0))

/-- The MSE loss value accumulated by the same loop (`value += dummy * dummy`). -/
def mseValue (e : expression_ann α) (node : ℕ → α) (label : List α) : α :=
  ((List.range e.m).map (fun i =>
    (node (ogene e i) - label.getD i 0) * (node (ogene e i) - label.getD i 0))).sum

/-- The softmax probabilities of the CE branch. -/
def cePs (sem : Sem α) (e : expression_ann α) (node : ℕ → α) : List α :=
  let ps := (List.range e.m).map (fun i => sem.expf (node (ogene e i)))
  ps.map (fun a => a / ps.sum)

/-- The virtual per-output sensitivities of the CE branch (`p_i - label_i`). -/
def ceSeeds (sem : Sem α) (e : expression_ann α) (node : ℕ → α) (label : List α) :
    List α :=
  (List.range e.m).map (fun i => (cePs sem e node).getD i 0 - label.getD i 0)

/-- The cross-entropy value `-Σ log(p_i)·label_i`. -/
def ceValue (sem : Sem α) (e : expression_ann α) (node : ℕ → α) (label : List α) : α :=
  -(((List.range e.m).map
      (fun i => sem.logf ((cePs sem e node).getD i 0) * label.getD i 0)).sum)

/-- Dispatch of the `switch (loss_e)` in `d_loss` for the appended seeds. -/
def seedsOf (sem : Sem α) (e : expression_ann α) (node : ℕ → α) (label : List α) :
    loss_type → List α
  | loss_type.MSE => mseSeeds e node label
  | loss_type.CE => ceSeeds sem e node label

/-- Dispatch of the `switch (loss_e)` in `d_loss` for the loss value. -/
def valueOf (sem : Sem α) (e : expression_ann α) (node : ℕ → α) (label : List α) :
    loss_type → α
  | loss_type.MSE => mseValue e node label
  | loss_type.CE => ceValue sem e node label

/-- The `m_connected` entries contributed by active internal consumers in
`update_data_structures`: a pair (consumer id, weight index) for every
connection gene of an active internal node that selects the active node `v`. -/
def internalConsumers (e : expression_ann α) (v : ℕ) : List (ℕ × ℕ) :=
  (activeNodes e).flatMap (fun id =>
    if e.n ≤ id then
      (List.range (arityOf e id)).filterMap (fun i =>
        if cgene e id i = v ∧ v ∈ activeNodes e then some (id, wIdxOf e id + i) else none)
    else [])

/-- The virtual output consumers appended by `update_data_structures`: for each
output selecting node `v` a pair (n + r*c + i, 0). -/
def outputConsumers (e : expression_ann α) (v : ℕ) : List (ℕ × ℕ) :=
  (List.range e.m).filterMap (fun i =>
    if ogene e i = v then some (nNodes e + i, 0) else none)

/-- The full `m_connected[v]` list. -/
def m_connected (e : expression_ann α) (v : ℕ) : List (ℕ × ℕ) :=
  internalConsumers e v ++ outputConsumers e v

/-- The consumer accumulation `cum` of the backward sweep: a real consumer
contributes `m_weights[p.2] * d_node[p.1]`, a virtual one (id ≥ n + r*c) reads
the seed appended at position `d_node.size - m + (p.1 - (n + r*c))`. -/
def cumOf (e : expression_ann α) (dn : ℕ → α) (seeds : List α) (v : ℕ) : α :=
  ((m_connected e v).map (fun p =>
    if p.1 < nNodes e then e.weights.getD p.2 0 * dn p.1
    else seeds.getD (p.1 - nNodes e) 0)).sum

/-- One iteration of the backward sweep of `d_loss`: skip input nodes,
multiply the accumulated consumer sum into `d_node[id]`, then emit the per-edge
weight gradients and the bias gradient of the node. -/
def backStep (e : expression_ann α) (node : ℕ → α) (seeds : List α)
    (s : (ℕ → α) × (ℕ → α) × (ℕ → α)) (id : ℕ) : (ℕ → α) × (ℕ → α) × (ℕ → α) :=
  if id < e.n then s
  else
    let d := s.1 id * cumOf e s.1 seeds id
    (Function.update s.1 id d,
     (List.range (arityOf e id)).foldl
       (fun g i => Function.update g (wIdxOf e id + i) (d * node (cgene e id i))) s.2.1,
     Function.update s.2.2 (bIdxOf e id) d)

/-- The state (d_node, gweights, gbiases) after the backward sweep of `d_loss`:
the active nodes are visited in descending order starting from the `d_node` of
the forward pass and zero-initialised gradient vectors. -/
def d_loss_backward (sem : Sem α) (e : expression_ann α) (point label : List α)
    (kind : loss_type) : (ℕ → α) × (ℕ → α) × (ℕ → α) :=
  ((activeNodes e).reverse).foldl
    (backStep e (fill_nodes sem.ke e point).1
      (seedsOf sem e (fill_nodes sem.ke e point).1 label kind))
    ((fill_nodes sem.ke e point).2, fun _ => 0, fun _ => 0)

/-- The single-sample `d_loss`: the loss value, the gradient with respect to
all weights and the gradient with respect to all biases. -/
def d_loss (sem : Sem α) (e : expression_ann α) (point label : List α)
    (kind : loss_type) : α × (ℕ → α) × (ℕ → α) :=
  (valueOf sem e (fill_nodes sem.ke e point).1 label kind,
   (d_loss_backward sem e point label kind).2.1,
   (d_loss_backward sem e point label kind).2.2)

/-- One sample of the loop of `update_weights`: compute the single-sample
`d_loss` at the current weights and biases and subtract `coeff` times the
gradients from them. -/
def updStep (sem : Sem α) (kind : loss_type) (coeff : α) (e : expression_ann α)
    (pl : List α × List α) : expression_ann α :=
  { e with
    weights := e.weights.mapIdx (fun i w => w - coeff * (d_loss sem e pl.1 pl.2 kind).2.1 i),
    biases := e.biases.mapIdx (fun i b => b - coeff * (d_loss sem e pl.1 pl.2 kind).2.2 i) }

/-- The member `update_weights`: `coeff = lr / (dlast - dfirst)` computed once
from the batch length, then one `d_loss`-and-subtract per sample, sample after
sample (each sample's gradient is taken at the already-updated parameters). -/
def update_weights (sem : Sem α) (kind : loss_type) (lr : α) (e : expression_ann α)
    (batch : List (List α × List α)) : expression_ann α :=
  batch.foldl (updStep sem kind (lr / (batch.length : α))) e

/-- The while loop of `sgd`: if fewer than `batch_size` samples remain they form
the trailing batch, otherwise the next `batch_size` samples are processed and
the iterators advance.  The fuel argument bounds the number of iterations (the
C++ loop does not terminate for `batch_size = 0`; every use takes `bs ≥ 1`, for
which `data.length` iterations always suffice). -/
def sgdLoop (sem : Sem α) (kind : loss_type) (lr : α) (bs : ℕ) :
    ℕ → expression_ann α → List (List α × List α) → expression_ann α
  | 0, e, _ => e
  | k + 1, e, data =>
    if data = [] then e
    else if data.length < bs then update_weights sem kind lr e data
    else sgdLoop sem kind lr bs k (update_weights sem kind lr e (data.take bs))
      (data.drop bs)

/-- The member `sgd`: argument checks, loss-kind parsing, then the batch loop. -/
def sgd [DecidableEq α] (sem : Sem α) (e : expression_ann α)
    (points labels : List (List α)) (lr : α) (bs : ℕ) (loss_s : String) :
    Except String (expression_ann α) :=
  if points.length ≠ labels.length then
    Except.error "Data and label size mismatch"
  else if points.length = 0 then
    Except.error "Data size cannot be zero"
  else if lr ≤ 0 then
    Except.error "The learning rate must be a positive number"
  else if loss_s = "MSE" then
    Except.ok (sgdLoop sem loss_type.MSE lr bs (points.zip labels).length e (points.zip labels))
  else if loss_s = "CE" then
    Except.ok (sgdLoop sem loss_type.CE lr bs (points.zip labels).length e (points.zip labels))
  else Except.error "only MSE and CE are allowed"

theorem getD_map_range (f : ℕ → α) (m i : ℕ) (h : i < m) :
    ((List.range m).map f).getD i 0 = f i := by
  rw [List.getD_eq_getElem?_getD, List.getElem?_map, List.getElem?_range h]
  rfl

theorem cumOf_congr (e : expression_ann α) (f g : ℕ → α) (seeds : List α) (v : ℕ)
    (h : ∀ p ∈ m_connected e v, p.1 < nNodes e → f p.1 = g p.1) :
    cumOf e f seeds v = cumOf e g seeds v := by
  unfold cumOf
  congr 1
  apply List.map_congr_left
  intro p hp
  by_cases hlt : p.1 < nNodes e
  · simp only [if_pos hlt, h p hp hlt]
  · simp only [if_neg hlt]

theorem back_untouched (e : expression_ann α) (node : ℕ → α) (seeds : List α)
    (l : List ℕ) (s : (ℕ → α) × (ℕ → α) × (ℕ → α)) (v : ℕ) (hv : v ∉ l) :
    (l.foldl (backStep e node seeds) s).1 v = s.1 v := by
  induction l generalizing s with
  | nil => rfl
  | cons a t ih =>
    have hva : v ≠ a := fun h => hv (h ▸ List.mem_cons_self a t)
    have hvt : v ∉ t := fun h => hv (List.mem_cons_of_mem a h)
    rw [List.foldl_cons, ih _ hvt]
    by_cases hc : a < e.n <;> simp [backStep, hc, Function.update_noteq hva]

/-- After the backward sweep over a strictly descending node list, every
internal node whose consumers all lie strictly above it holds its forward-pass
derivative multiplied by the consumer accumulation, the latter expressed in
terms of the final d_node array. -/
theorem back_final (e : expression_ann α) (node : ℕ → α) (seeds : List α)
    (l : List ℕ) (s : (ℕ → α) × (ℕ → α) × (ℕ → α)) (hl : l.Pairwise (· > ·)) :
    ∀ id ∈ l, e.n ≤ id → (∀ p ∈ m_connected e id, id < p.1) →
      (l.foldl (backStep e node seeds) s).1 id
        = s.1 id * cumOf e (l.foldl (backStep e node seeds) s).1 seeds id := by
  induction l generalizing s with
  | nil => intro id hid; cases hid
  | cons a t ih =>
    intro id hid hge hcons
    have hat : ∀ b ∈ t, b < a := fun b hb => (List.pairwise_cons.mp hl).1 b hb
    rcases List.mem_cons.mp hid with rfl | hmem
    · have hanot : id ∉ t := fun h => lt_irrefl id (hat id h)
      have hu := back_untouched e node seeds t (backStep e node seeds s id) id hanot
      have hstep1 : (backStep e node seeds s id).1 id
          = s.1 id * cumOf e s.1 seeds id := by
        simp [backStep, not_lt.mpr hge]
      have hcum : cumOf e ((id :: t).foldl (backStep e node seeds) s).1 seeds id
          = cumOf e s.1 seeds id := by
        apply cumOf_congr
        intro p hp hplt
        have hpgt : id < p.1 := hcons p hp
        have hpnot : p.1 ∉ t := fun h => absurd (hat _ h) (not_lt.mpr hpgt.le)
        rw [List.foldl_cons,
          back_untouched e node seeds t (backStep e node seeds s id) p.1 hpnot]
        simp [backStep, not_lt.mpr hge, Function.update_noteq hpgt.ne.symm]
      rw [hcum, List.foldl_cons, hu, hstep1]
    · have hlta : id < a := hat id hmem
      have hs1 : (backStep e node seeds s a).1 id = s.1 id := by
        by_cases hc : a < e.n <;>
          simp [backStep, hc, Function.update_noteq hlta.ne]
      simpa only [List.foldl_cons, hs1] using
        ih (backStep e node seeds s a) (List.Pairwise.of_cons hl) id hmem hge hcons

omit [LinearOrderedField α] in
theorem mem_internalConsumers (e : expression_ann α) (v : ℕ) (p : ℕ × ℕ)
    (hp : p ∈ internalConsumers e v) : p.1 < nNodes e := by
  unfold internalConsumers at hp
  rw [List.mem_flatMap] at hp
  obtain ⟨id, hid, hmem⟩ := hp
  by_cases hc : e.n ≤ id
  · rw [if_pos hc, List.mem_filterMap] at hmem
    obtain ⟨i, _, heq⟩ := hmem
    by_cases hcc : cgene e id i = v ∧ v ∈ activeNodes e
    · rw [if_pos hcc] at heq
      cases heq
      unfold activeNodes at hid
      exact List.mem_range.mp (List.mem_of_mem_filter hid)
    · rw [if_neg hcc] at heq
      cases heq
  · rw [if_neg hc] at hmem
    cases hmem

omit [LinearOrderedField α] in
theorem mem_outputConsumers (e : expression_ann α) (v : ℕ) (p : ℕ × ℕ)
    (hp : p ∈ outputConsumers e v) :
    ∃ i, i < e.m ∧ p.1 = nNodes e + i ∧ ogene e i = v := by
  unfold outputConsumers at hp
  rw [List.mem_filterMap] at hp
  obtain ⟨i, hi, heq⟩ := hp
  by_cases hc : ogene e i = v
  · rw [if_pos hc] at heq
    cases heq
    exact ⟨i, List.mem_range.mp hi, rfl, hc⟩
  · rw [if_neg hc] at heq
    cases heq

/-- Modelled from the spec: restriction of the double ReLu kernel to exact
rational inputs; the other slots are computable placeholders that none of the
rational test networks (whose every function gene names ReLu) ever reach. -/
def qKe : String → List ℚ → ℚ := fun s l => if s = "ReLu" then max l.sum 0 else l.sum

/-- Semantic oracle over ℚ for the concrete runs; `expf`/`logf` are computable
placeholders never invoked on the MSE paths exercised. -/
def qSem : Sem ℚ := ⟨qKe, fun x => x, fun x => x⟩

/-- C3 (amended): in `d_loss` with MSE loss on a single sample, the final
`d_node` of an active internal node equals its forward-pass local derivative
multiplied by the accumulated consumer contributions, where a real consumer
contributes its weight times its final `d_node` and a virtual output consumer
contributes the seeded sensitivity `2·(node[out] − label)` (with weight 1, and
without any activation-derivative factor inside the seed itself). -/
theorem C3_mse_backward (sem : Sem α) (e : expression_ann α) (point label : List α)
    (id : ℕ) (hid : id ∈ activeNodes e) (hge : e.n ≤ id)
    (hcons : ∀ p ∈ m_connected e id, id < p.1) :
    (d_loss_backward sem e point label loss_type.MSE).1 id
      = (fill_nodes sem.ke e point).2 id *
        ((m_connected e id).map (fun p =>
          if p.1 < nNodes e then
            e.weights.getD p.2 0 * (d_loss_backward sem e point label loss_type.MSE).1 p.1
          else
            2 * ((fill_nodes sem.ke e point).1 (ogene e (p.1 - nNodes e))
                  - label.getD (p.1 - nNodes e) 0))).sum := by
  have hrev : ((activeNodes e).reverse).Pairwise (· > ·) := by
    rw [List.pairwise_reverse]
    exact activeNodes_pairwise e
  have hmem : id ∈ (activeNodes e).reverse := List.mem_reverse.mpr hid
  have h := back_final e (fill_nodes sem.ke e point).1
    (seedsOf sem e (fill_nodes sem.ke e point).1 label loss_type.MSE)
    ((activeNodes e).reverse)
    ((fill_nodes sem.ke e point).2, fun _ => 0, fun _ => 0) hrev id hmem hge hcons
  rw [d_loss_backward, h]
  congr 1
  unfold cumOf
  congr 1
  apply List.map_congr_left
  intro p hp
  by_cases hlt : p.1 < nNodes e
  · simp only [if_pos hlt]
  · simp only [if_neg hlt]
    rcases List.mem_append.mp (by simpa only [m_connected] using hp) with hin | hout
    · exact absurd (mem_internalConsumers e id p hin) hlt
    · obtain ⟨i, him, hp1, _⟩ := mem_outputConsumers e id p hout
      rw [hp1, Nat.add_sub_cancel_left]
      show (mseSeeds e (fill_nodes sem.ke e point).1 label).getD i 0 = _
      rw [mseSeeds, getD_map_range _ _ _ him]

/-- The seed formula the claim asserts (taken from the spec's wording, for
comparison against the seeds the source pushes). -/
def claimedMseSeeds (e : expression_ann α) (node dnode : ℕ → α) (label : List α) :
    List α :=
  (List.range e.m).map (fun i =>
    dnode (ogene e i) * (2 * (node (ogene e i) - label.getD i 0)))

/-- C3 counterexample: for the one-node ReLu network `exq` (weight 1, bias −1)
at input [0] with label [1], the node output is 0 with activation derivative 0,
so the code pushes the seed 2·(0 − 1) = −2 while the claim's formula
dNode·2·(node − label) gives 0. -/
theorem C3_counterexample :
    mseSeeds exq (fill_nodes qKe exq [0]).1 [1]
        ≠ claimedMseSeeds exq (fill_nodes qKe exq [0]).1 (fill_nodes qKe exq [0]).2 [1]
      ∧ mseSeeds exq (fill_nodes qKe exq [0]).1 [1] = [-2]
      ∧ claimedMseSeeds exq (fill_nodes qKe exq [0]).1 (fill_nodes qKe exq [0]).2 [1]
          = [0] := by
  have ha : activeNodes exq = [0, 1] := by decide
  have hN : (fill_nodes qKe exq [0]).1 1 = 0 := by
    unfold fill_nodes
    rw [ha]
    norm_num [fillStep, exq, fnameOf, fgene, geneIdx, arityOf, colOf, cgene, nodeIns,
      gatherIns, weightIns, addBias, wIdxOf, bIdxOf, dnodeLocal, qKe,
      Function.update, max_def, show List.range 1 = [0] from rfl]
  have hD : (fill_nodes qKe exq [0]).2 1 = 0 := by
    unfold fill_nodes
    rw [ha]
    norm_num [fillStep, exq, fnameOf, fgene, geneIdx, arityOf, colOf, cgene, nodeIns,
      gatherIns, weightIns, addBias, wIdxOf, bIdxOf, dnodeLocal_ReLu, qKe,
      Function.update, max_def, show List.range 1 = [0] from rfl]
  have hog : ogene exq 0 = 1 := by decide
  have h1 : mseSeeds exq (fill_nodes qKe exq [0]).1 [1] = [-2] := by
    rw [mseSeeds, show exq.m = 1 from rfl, show List.range 1 = [0] from rfl]
    simp only [List.map_cons, List.map_nil, hog, hN, List.getD_cons_zero]
    norm_num
  have h2 : claimedMseSeeds exq (fill_nodes qKe exq [0]).1
      (fill_nodes qKe exq [0]).2 [1] = [0] := by
    rw [claimedMseSeeds, show exq.m = 1 from rfl, show List.range 1 = [0] from rfl]
    simp only [List.map_cons, List.map_nil, hog, hN, hD, List.getD_cons_zero]
    norm_num
  refine ⟨?_, h1, h2⟩
  rw [h1, h2]
  simp

/-- The amended backward characterisation instantiated on the concrete ℚ ReLu
network at its single internal node. -/
theorem C3_mse_backward_witness :
    (d_loss_backward qSem exq [0] [1] loss_type.MSE).1 1
      = (fill_nodes qKe exq [0]).2 1 *
        ((m_connected exq 1).map (fun p =>
          if p.1 < nNodes exq then
            exq.weights.getD p.2 0 * (d_loss_backward qSem exq [0] [1] loss_type.MSE).1 p.1
          else
            2 * ((fill_nodes qKe exq [0]).1 (ogene exq (p.1 - nNodes exq))
                  - [1].getD (p.1 - nNodes exq) 0))).sum :=
  C3_mse_backward qSem exq [0] [1] 1 (by decide) (by decide) (by decide)

/-- The batched `d_loss`: per-sample losses summed then divided by the batch
length, per-sample gradients accumulated as `g += g_sample / dim`. -/
def d_loss_batch (sem : Sem α) (e : expression_ann α)
    (batch : List (List α × List α)) (kind : loss_type) : α × (ℕ → α) × (ℕ → α) :=
  ((batch.map (fun pl => (d_loss sem e pl.1 pl.2 kind).1)).sum / (batch.length : α),
   fun i => (batch.map (fun pl => (d_loss sem e pl.1 pl.2 kind).2.1 i / (batch.length : α))).sum,
   fun i => (batch.map (fun pl => (d_loss sem e pl.1 pl.2 kind).2.2 i / (batch.length : α))).sum)

/-- The per-batch update the claim asserts (stated from the spec's wording, for
comparison): one single update per batch, by `lr / batch_size` times the
batch-averaged gradient taken at the parameters current at the start of the
batch. -/
def claimUpdate (sem : Sem α) (kind : loss_type) (lr : α) (bs : ℕ)
    (e : expression_ann α) (batch : List (List α × List α)) : expression_ann α :=
  { e with
    weights := e.weights.mapIdx
      (fun i w => w - lr / (bs : α) * (d_loss_batch sem e batch kind).2.1 i),
    biases := e.biases.mapIdx
      (fun i b => b - lr / (bs : α) * (d_loss_batch sem e batch kind).2.2 i) }

/-- The batch loop of the claim's reading of `sgd` (same batching, but one
`claimUpdate` per batch). -/
def sgdClaimLoop (sem : Sem α) (kind : loss_type) (lr : α) (bs : ℕ) :
    ℕ → expression_ann α → List (List α × List α) → expression_ann α
  | 0, e, _ => e
  | k + 1, e, data =>
    if data = [] then e
    else if data.length < bs then claimUpdate sem kind lr bs e data
    else sgdClaimLoop sem kind lr bs k (claimUpdate sem kind lr bs e (data.take bs))
      (data.drop bs)

/-- `sgd` as the claim reads it: identical checks and batching, but one
batched-gradient update per batch. -/
def sgdClaim [DecidableEq α] (sem : Sem α) (e : expression_ann α)
    (points labels : List (List α)) (lr : α) (bs : ℕ) (loss_s : String) :
    Except String (expression_ann α) :=
  if points.length ≠ labels.length then
    Except.error "Data and label size mismatch"
  else if points.length = 0 then
    Except.error "Data size cannot be zero"
  else if lr ≤ 0 then
    Except.error "The learning rate must be a positive number"
  else if loss_s = "MSE" then
    Except.ok (sgdClaimLoop sem loss_type.MSE lr bs (points.zip labels).length e
      (points.zip labels))
  else if loss_s = "CE" then
    Except.ok (sgdClaimLoop sem loss_type.CE lr bs (points.zip labels).length e
      (points.zip labels))
  else Except.error "only MSE and CE are allowed"

/-- The contiguous batches `sgd` walks: full batches of size `bs` and a
trailing batch of the remaining samples (allowed to be shorter). -/
def batches {β : Type} (bs : ℕ) : ℕ → List β → List (List β)
  | 0, _ => []
  | _ + 1, [] => []
  | k + 1, b :: t =>
    if (b :: t).length < bs then [b :: t]
    else (b :: t).take bs :: batches bs k ((b :: t).drop bs)

theorem sgdLoop_eq_batches (sem : Sem α) (kind : loss_type) (lr : α) (bs : ℕ)
    (hbs : 1 ≤ bs) :
    ∀ (k : ℕ) (data : List (List α × List α)) (e : expression_ann α),
      data.length ≤ k →
      sgdLoop sem kind lr bs k e data
        = (batches bs k data).foldl (update_weights sem kind lr) e := by
  intro k
  induction k with
  | zero =>
    intro data e hlen
    have : data = [] := List.eq_nil_of_length_eq_zero (Nat.le_zero.mp hlen)
    subst this
    rfl
  | succ k ih =>
    intro data e hlen
    cases data with
    | nil => simp [sgdLoop, batches]
    | cons b t =>
      rw [sgdLoop, batches]
      rw [if_neg (List.cons_ne_nil b t)]
      by_cases hsz : (b :: t).length < bs
      · rw [if_pos hsz, if_pos hsz]
        rfl
      · rw [if_neg hsz, if_neg hsz, List.foldl_cons]
        apply ih
        rw [List.length_drop]
        simp only [List.length_cons] at hlen hsz ⊢
        omega

/-- C4 (amended): one call of `sgd` with valid arguments partitions the dataset
into contiguous batches (a trailing batch shorter than `batch_size` allowed)
and, for each batch in order, performs one update per sample: each sample's
single-sample `d_loss` gradient is computed at the weights/biases current at
that sample (already updated by the batch's earlier samples) and subtracted
scaled by `lr / L` where `L` is that batch's length. -/
theorem C4_sgd_batching [DecidableEq α] (sem : Sem α) (e : expression_ann α)
    (points labels : List (List α)) (lr : α) (bs : ℕ)
    (hlen : points.length = labels.length) (hne : points.length ≠ 0)
    (hlr : ¬ lr ≤ 0) (hbs : 1 ≤ bs) :
    sgd sem e points labels lr bs "MSE"
      = Except.ok ((batches bs (points.zip labels).length (points.zip labels)).foldl
          (update_weights sem loss_type.MSE lr) e)
    ∧ ∀ (f : expression_ann α) (batch : List (List α × List α)),
        update_weights sem loss_type.MSE lr f batch
          = batch.foldl (updStep sem loss_type.MSE (lr / (batch.length : α))) f := by
  constructor
  · rw [sgd, if_neg (by simp [hlen]), if_neg hne, if_neg hlr, if_pos rfl]
    rw [sgdLoop_eq_batches sem loss_type.MSE lr bs hbs (points.zip labels).length
      (points.zip labels) e le_rfl]
  · intro f batch
    rfl

/-- The one-node ReLu network over ℚ used for the sgd computations (weight 1,
bias 0). -/
def exC4 : expression_ann ℚ := ⟨1, 1, 1, 1, [1], [0, 0, 1], ["ReLu"], [1], [0]⟩

/-- The amended batching fact instantiated on the concrete ℚ network with one
sample and batch size 2. -/
theorem C4_sgd_batching_witness :
    sgd qSem exC4 [[1]] [[0]] 1 2 "MSE"
      = Except.ok ((batches 2 ([[1]].zip [[0]]).length ([[1]].zip [[0]])).foldl
          (update_weights qSem loss_type.MSE 1) exC4) :=
  (C4_sgd_batching qSem exC4 [[1]] [[0]] 1 2 rfl (by decide) (by norm_num)
    (by decide)).1

theorem exC4_gradient :
    (d_loss_backward qSem exC4 [1] [0] loss_type.MSE).2.1 0 = 2
      ∧ (d_loss_backward qSem exC4 [1] [0] loss_type.MSE).2.2 0 = 2 := by
  have hke : qSem.ke = qKe := rfl
  have ha : activeNodes exC4 = [0, 1] := by decide
  have hrev : (activeNodes exC4).reverse = [1, 0] := by rw [ha]; rfl
  have hN0 : (fill_nodes qKe exC4 [1]).1 0 = 1 := by
    unfold fill_nodes
    rw [ha]
    norm_num [fillStep, exC4, fnameOf, fgene, geneIdx, arityOf, colOf, cgene, nodeIns,
      gatherIns, weightIns, addBias, wIdxOf, bIdxOf, dnodeLocal_ReLu, qKe,
      Function.update, max_def, show List.range 1 = [0] from rfl]
  have hD1 : (fill_nodes qKe exC4 [1]).2 1 = 1 := by
    unfold fill_nodes
    rw [ha]
    norm_num [fillStep, exC4, fnameOf, fgene, geneIdx, arityOf, colOf, cgene, nodeIns,
      gatherIns, weightIns, addBias, wIdxOf, bIdxOf, dnodeLocal_ReLu, qKe,
      Function.update, max_def, show List.range 1 = [0] from rfl]
  have hN1 : (fill_nodes qKe exC4 [1]).1 1 = 1 := by
    unfold fill_nodes
    rw [ha]
    norm_num [fillStep, exC4, fnameOf, fgene, geneIdx, arityOf, colOf, cgene, nodeIns,
      gatherIns, weightIns, addBias, wIdxOf, bIdxOf, dnodeLocal_ReLu, qKe,
      Function.update, max_def, show List.range 1 = [0] from rfl]
  have hog : ogene exC4 0 = 1 := by decide
  have hseeds : seedsOf qSem exC4 (fill_nodes qKe exC4 [1]).1 [0] loss_type.MSE
      = [2] := by
    show mseSeeds exC4 (fill_nodes qKe exC4 [1]).1 [0] = [2]
    rw [mseSeeds, show exC4.m = 1 from rfl, show List.range 1 = [0] from rfl]
    simp only [List.map_cons, List.map_nil, hog, hN1, List.getD_cons_zero]
    norm_num
  have hc1 : m_connected exC4 1 = [(2, 0)] := by decide
  have harity : arityOf exC4 1 = 1 := by decide
  have hw : wIdxOf exC4 1 = 0 := by decide
  have hbi : bIdxOf exC4 1 = 0 := by decide
  have hcg : cgene exC4 1 0 = 0 := by decide
  have hnn : nNodes exC4 = 2 := by decide
  have hn : exC4.n = 1 := rfl
  constructor <;>
  · rw [d_loss_backward, hke, hrev, hseeds]
    simp only [List.foldl_cons, List.foldl_nil]
    norm_num [backStep, cumOf, hc1, hD1, hN0, harity, hw, hbi, hcg, hnn, hn,
      Function.update, show List.range 1 = [0] from rfl]

/-- C4 counterexample: on the one-sample dataset with batch size 2, the code's
`sgd` performs a per-sample update scaled by `lr / 1` (the trailing batch
length), yielding weight −1, while the claim's one-batched-update reading
scaled by `lr / batch_size` yields weight 0. -/
theorem C4_counterexample :
    sgd qSem exC4 [[1]] [[0]] 1 2 "MSE" ≠ sgdClaim qSem exC4 [[1]] [[0]] 1 2 "MSE" := by
  have hgw : (d_loss qSem exC4 [1] [0] loss_type.MSE).2.1 0 = 2 :=
    exC4_gradient.1
  have hcode : sgd qSem exC4 [[1]] [[0]] 1 2 "MSE"
      = Except.ok (update_weights qSem loss_type.MSE 1 exC4 [([1], [0])]) := by
    rfl
  have hclaim : sgdClaim qSem exC4 [[1]] [[0]] 1 2 "MSE"
      = Except.ok (claimUpdate qSem loss_type.MSE 1 2 exC4 [([1], [0])]) := by
    rfl
  have hwcode : (update_weights qSem loss_type.MSE 1 exC4 [([1], [0])]).weights
      = [-1] := by
    norm_num [update_weights, updStep, List.mapIdx_eq_enum_map, List.enum,
      List.enumFrom, hgw, show exC4.weights = [1] from rfl]
  have hwclaim : (claimUpdate qSem loss_type.MSE 1 2 exC4 [([1], [0])]).weights
      = [0] := by
    have hb : (d_loss_batch qSem exC4 [([1], [0])] loss_type.MSE).2.1 0 = 2 := by
      rw [d_loss_batch]
      simp only [List.map_cons, List.map_nil, List.sum_cons, List.sum_nil, hgw]
      norm_num
    norm_num [claimUpdate, List.mapIdx_eq_enum_map, List.enum, List.enumFrom, hb,
      show exC4.weights = [1] from rfl]
  intro h
  rw [hcode, hclaim] at h
  injection h with h2
  have h3 := congrArg weights h2
  rw [hwcode, hwclaim] at h3
  norm_num at h3

/-- `set_weight(node_id, input_id, w)`: checks that the node exists and that
`input_id` is below the node's arity, then writes the weight at
`gene_idx[node_id] - (node_id - n)` (the index the source computes). -/
def set_weight_node (e : expression_ann α) (node_id input_id : ℕ) (w : α) :
    Except String (expression_ann α) :=
  if node_id < e.n ∨ e.n + e.r * e.c ≤ node_id then
    Except.error "Requested node id does not exist"
  else if arityOf e node_id ≤ input_id then
    Except.error "Requested input exceeds the function arity"
  else Except.ok { e with weights := e.weights.set (geneIdx e node_id - (node_id - e.n)) w }

/-- `set_weight(idx, w)`: the source performs `m_weights[idx] = w` with no
bounds check of any kind (an out-of-range idx is an unchecked write, not an
exception); modelled with `List.set`, which leaves the vector unchanged out of
range, the point being that no error is ever raised. -/
def set_weight_idx (e : expression_ann α) (idx : ℕ) (w : α) :
    Except String (expression_ann α) :=
  Except.ok { e with weights := e.weights.set idx w }

/-- `set_weights(ws)`: strict size check, then wholesale replacement. -/
def set_weights (e : expression_ann α) (ws : List α) :
    Except String (expression_ann α) :=
  if ws.length ≠ e.weights.length then
    Except.error "The vector of weights has the wrong dimension"
  else Except.ok { e with weights := ws }

/-- `set_bias(idx, w)`: the source performs `m_biases[idx] = w` with no bounds
check (no exception on an out-of-range idx). -/
def set_bias (e : expression_ann α) (idx : ℕ) (w : α) :
    Except String (expression_ann α) :=
  Except.ok { e with biases := e.biases.set idx w }

/-- `set_biases(bs)`: strict size check, then wholesale replacement. -/
def set_biases (e : expression_ann α) (bs : List α) :
    Except String (expression_ann α) :=
  if bs.length ≠ e.biases.length then
    Except.error "The vector of biases has the wrong dimension"
  else Except.ok { e with biases := bs }

/-- C7: the indexed overloads `set_weight(idx, w)` and `set_bias(idx, w)` never
raise, whatever the index: the source writes `m_weights[idx]` / `m_biases[idx]`
without any check, although its documentation promises an invalid-argument
error for an invalid idx; in particular the one-weight network accepts
index 5.  The sized setters do check: `set_weights` and `set_biases` reject a
wrong-length vector and leave the stored vectors unchanged. -/
theorem C7_unchecked_setters :
    (∀ (e : expression_ann ℚ) (idx : ℕ) (w : ℚ),
      set_weight_idx e idx w = Except.ok { e with weights := e.weights.set idx w }) ∧
    (∀ (e : expression_ann ℚ) (idx : ℕ) (w : ℚ),
      set_bias e idx w = Except.ok { e with biases := e.biases.set idx w }) ∧
    set_weight_idx exq 5 (1 / 2) = Except.ok exq ∧
    set_bias exq 5 (1 / 2) = Except.ok exq ∧
    set_weights exq [1, 2] = Except.error "The vector of weights has the wrong dimension" ∧
    set_biases exq [1, 2] = Except.error "The vector of biases has the wrong dimension" := by
  refine ⟨fun e idx w => rfl, fun e idx w => rfl, rfl, rfl, rfl, rfl⟩

end expression_ann

/-- The state of a `momes4cgp` algorithm object: generation count, maximum
active-mutation count, seed, verbosity and the accumulated log (a log line is
(gen, fevals, best loss, ndf size, max complexity)). -/
structure momes4cgp where
  gen : ℕ
  max_mut : ℕ
  seed : ℕ
  verbosity : ℕ
  log : List (ℕ × ℕ × ℚ × ℕ × ℚ)

namespace momes4cgp

/-- The `momes4cgp` constructor: throws when `max_mut` is zero, otherwise
stores the arguments with verbosity 0 and an empty log. -/
def ctor (gen max_mut seed : ℕ) : Except String momes4cgp :=
  if max_mut = 0 then
    Except.error "The number of active mutations is zero, it must be at least 1."
  else Except.ok ⟨gen, max_mut, seed, 0, []⟩

/-- C10: constructing a momes4cgp search with max_mut = 0 raises
InvalidArgument whatever the generation count and seed are. -/
theorem C10_ctor_zero_mut (gen seed : ℕ) :
    ctor gen 0 seed
      = Except.error "The number of active mutations is zero, it must be at least 1." := by
  rfl

/-- What `evolve` produces besides the returned population: the log the
algorithm holds afterwards and the number of fitness evaluations it performed. -/
structure EvolveOut (P : Type) where
  pop : P
  log : List (ℕ × ℕ × ℚ × ℕ × ℚ)
  fevals : ℕ

/-- The preamble of `momes4cgp::evolve`: reject a non-symbolic-regression
problem, a single-objective problem and a population smaller than 2; then, if
the generation count is zero, return the input population untouched — before
the log is cleared and before any individual is processed.  The main
generation loop (which consumes the pagmo host) is abstracted as `mainLoop`. -/
def evolvePre {P : Type} (a : momes4cgp) (isSR : Bool) (n_obj NP : ℕ) (pop : P)
    (mainLoop : momes4cgp → P → EvolveOut P) : Except String (EvolveOut P) :=
  if !isSR then
    Except.error "does not seem to be a symbolic regression problem"
  else if n_obj = 1 then
    Except.error "can only be used on multiobjective symbolic regression problems"
  else if NP < 2 then
    Except.error "needs at least 2 individuals in the population"
  else if a.gen = 0 then
    Except.ok ⟨pop, a.log, 0⟩
  else Except.ok (mainLoop a pop)

/-- C9: for every population passing the preamble validation, evolve with
gen = 0 returns the input population unchanged, performs no fitness
evaluation and leaves the internal log exactly as it was — whatever the main
generation loop would do. -/
theorem C9_gen_zero_identity {P : Type} (a : momes4cgp) (isSR : Bool)
    (n_obj NP : ℕ) (pop : P) (mainLoop : momes4cgp → P → EvolveOut P)
    (hsr : isSR = true) (hobj : 2 ≤ n_obj) (hnp : 2 ≤ NP) (hgen : a.gen = 0) :
    evolvePre a isSR n_obj NP pop mainLoop = Except.ok ⟨pop, a.log, 0⟩ := by
  rw [evolvePre, hsr]
  rw [if_neg (by simp)]
  rw [if_neg (by omega)]
  rw [if_neg (by omega)]
  rw [if_pos hgen]

/-- The gen = 0 early return exercised concretely. -/
theorem C9_gen_zero_identity_witness :
    evolvePre ⟨0, 1, 7, 0, []⟩ true 2 2 (42 : ℕ) (fun _ _ => ⟨0, [], 99⟩)
      = Except.ok ⟨42, [], 0⟩ :=
  C9_gen_zero_identity ⟨0, 1, 7, 0, []⟩ true 2 2 42 (fun _ _ => ⟨0, [], 99⟩)
    rfl (by omega) (by omega) rfl


/-- A machine double as the diversity test observes it: a finite (exact) value,
an infinity of either sign, or a NaN. -/
inductive DVal where
  | fin : ℚ → DVal
  | pinf : DVal
  | ninf : DVal
  | nan : DVal
deriving DecidableEq

/-- `std::isfinite`. -/
def DVal.isfinite : DVal → Bool
  | DVal.fin _ => true
  | _ => false

/-- IEEE `operator==` on doubles: NaN compares unequal to everything,
including itself. -/
def DVal.ieeeEq : DVal → DVal → Bool
  | DVal.fin a, DVal.fin b => decide (a = b)
  | DVal.pinf, DVal.pinf => true
  | DVal.ninf, DVal.ninf => true
  | _, _ => false

/-- `std::vector<double>::operator==`: equal sizes and element-wise IEEE
equality. -/
def fvecEq (a b : List DVal) : Bool :=
  decide (a.length = b.length) && (a.zip b).all (fun p => DVal.ieeeEq p.1 p.2)

/-- The diversity test of `momes4cgp::evolve`: the candidate is kept iff
`std::find(fs.begin(), fs.end(), f) == fs.end() && std::isfinite(f[0])` — note
that only the FIRST component of the fitness vector is tested for
finiteness. -/
def insertDecision (fs : List (List DVal)) (f : List DVal) : Bool :=
  (fs.find? (fun g => fvecEq g f)).isNone && (f.getD 0 DVal.nan).isfinite

/-- The insertion step: `popnew.push_back` exactly when the diversity test
passes. -/
def diversityInsert (fs : List (List DVal)) (f : List DVal) : List (List DVal) :=
  if insertDecision fs f then fs ++ [f] else fs

/-- The insertion predicate the claim asserts (stated from the spec's wording,
for comparison): keep iff the whole fitness vector is finite and no identical
vector is present. -/
def claimInsertDecision (fs : List (List DVal)) (f : List DVal) : Bool :=
  f.all DVal.isfinite && (fs.find? (fun g => fvecEq g f)).isNone

/-- C8 counterexample: a fitness vector whose first component is finite but
whose second is +∞ is inserted by the code (only f[0] is tested), while the
claim as stated demands it be discarded. -/
theorem C8_counterexample :
    insertDecision [] [DVal.fin 1, DVal.pinf] = true
      ∧ claimInsertDecision [] [DVal.fin 1, DVal.pinf] = false := by
  refine ⟨?_, ?_⟩ <;> rfl

/-- C8 (amended): after a candidate's fitness is evaluated, the candidate is
discarded (not appended to the augmented candidate pool) iff the first
component of its fitness vector is not finite or a fitness vector comparing
IEEE-equal to it is already present; otherwise it is appended. -/
theorem C8_diversity (fs : List (List DVal)) (f : List DVal) :
    (diversityInsert fs f = fs ++ [f]
        ↔ ((f.getD 0 DVal.nan).isfinite = true ∧ ∀ g ∈ fs, fvecEq g f = false))
    ∧ (¬((f.getD 0 DVal.nan).isfinite = true ∧ ∀ g ∈ fs, fvecEq g f = false) →
        diversityInsert fs f = fs) := by
  have hdec : insertDecision fs f = true
      ↔ ((f.getD 0 DVal.nan).isfinite = true ∧ ∀ g ∈ fs, fvecEq g f = false) := by
    rw [insertDecision, Bool.and_eq_true, and_comm, Option.isNone_iff_eq_none,
      List.find?_eq_none]
    constructor
    · rintro ⟨h1, h2⟩
      exact ⟨h1, fun g hg => by simpa using h2 g hg⟩
    · rintro ⟨h1, h2⟩
      exact ⟨h1, fun g hg => by simp [h2 g hg]⟩
  constructor
  · rw [diversityInsert]
    by_cases hins : insertDecision fs f = true
    · rw [if_pos hins]
      simp only [true_iff, iff_true_intro (hdec.mp hins)]
    · rw [if_neg hins]
      constructor
      · intro habs
        exact absurd (congrArg List.length habs) (by simp)
      · intro hcond
        exact absurd (hdec.mpr hcond) hins
  · intro hcond
    rw [diversityInsert, if_neg (fun ht => hcond (hdec.mp ht))]

/-- The amended diversity rule exercised concretely: an identical fitness
vector is already present, so the candidate is not appended. -/
theorem C8_diversity_witness :
    diversityInsert [[DVal.fin 1, DVal.fin 2]] [DVal.fin 1, DVal.fin 2]
      = [[DVal.fin 1, DVal.fin 2]] :=
  (C8_diversity [[DVal.fin 1, DVal.fin 2]] [DVal.fin 1, DVal.fin 2]).2
    (by intro h; exact absurd (h.2 [DVal.fin 1, DVal.fin 2] (by simp)) (by simp [fvecEq, DVal.ieeeEq]))

variable {α : Type} [LinearOrderedField α]

/-- The outcome of Eigen's full-pivot LU factorisation of the reduced Hessian,
kept abstract since Eigen is an external library: whether `isInvertible()`
holds, the diagonal of `matrixLU()` (the U factor's diagonal), and the
`inverse()` matrix. -/
structure EigenLU (α : Type) where
  invertible : Bool
  diagU : List α
  inv : ℕ → ℕ → α

/-- The indices of the non-zero gradient coordinates, collected in increasing
order exactly as the source's loop does. -/
def nonZeroIdx (grad : List α) : List ℕ :=
  (List.range grad.length).filter (fun j => grad.getD j 0 ≠ 0)

/-- Write one entry of a functional matrix. -/
def mupd (H : ℕ → ℕ → α) (a b : ℕ) (v : α) : ℕ → ℕ → α :=
  fun i j => if i = a ∧ j = b then v else H i j

/-- The reduced Hessian construction: walk the sparsity entries of the
lower-triangular Hessian; an entry whose two coordinate indices both carry a
non-zero gradient is written at the running (row, col) position and mirrored,
after which the counters advance — past a diagonal entry the row advances and
the column resets, otherwise the column advances. -/
def hRed (hs : List (ℕ × ℕ)) (hess : List α) (nz : List ℕ) : ℕ → ℕ → α :=
  ((List.range hess.length).foldl (fun st j =>
    let p := hs.getD j (0, 0)
    if p.1 ∈ nz ∧ p.2 ∈ nz then
      let H := mupd (mupd st.2.2 st.1 st.2.1 (hess.getD j 0)) st.2.1 st.1 (hess.getD j 0)
      if p.1 = p.2 then (st.1 + 1, 0, H) else (st.1, st.2.1 + 1, H)
    else st) ((0, 0, fun _ _ => 0) : ℕ × ℕ × (ℕ → ℕ → α))).2.2

/-- Guard (i): `G_red.array().isFinite().all()` — every reduced gradient entry
is finite (`finite` models the double finiteness test). -/
def gradGuard (finite : α → Bool) (grad : List α) : Bool :=
  (List.range (nonZeroIdx grad).length).all
    (fun j => finite (grad.getD ((nonZeroIdx grad).getD j 0) 0))

/-- Guards (ii) and (iii): `fullpivlu.isInvertible()` and all diagonal entries
of the U factor non-negative. -/
def luGuard (lu : EigenLU α) : Bool :=
  lu.invertible && lu.diagU.all (fun d => decide (0 ≤ d))

/-- Guard (iv): every entry of the s×s inverse is finite. -/
def invGuard (finite : α → Bool) (lu : EigenLU α) (s : ℕ) : Bool :=
  (List.range s).all (fun i => (List.range s).all (fun k => finite (lu.inv i k)))

/-- The `n_non_zero > 1` branch of the Newton refinement of one individual's
constants.  `C_red` and `G_red` are Eigen top-left block views into the column
vectors `C` and `G`, so the assignment `C_red = C_red - inverse * G_red`
writes through into `C`; the write-back loop then reads `C(j, 0)`, which is
exactly the refined block entry.  `lu` stands for the result of
`fullpivlu.compute(H_red)`. -/
def newtonStepMulti (finite : α → Bool) (lu : EigenLU α) (mx grad : List α) :
    List α :=
  let nz := nonZeroIdx grad
  let s := nz.length
  let C : ℕ → α := fun j => if j < s then mx.getD (nz.getD j 0) 0 else 0
  let G : ℕ → α := fun j => if j < s then grad.getD (nz.getD j 0) 0 else 0
  if gradGuard finite grad then
    if luGuard lu then
      if invGuard finite lu s then
        let C2 : ℕ → α := fun j =>
          if j < s then C j - ∑ k ∈ Finset.range s, lu.inv j k * G k else C j
        (List.range s).foldl (fun m j => m.set (nz.getD j 0) (C2 j)) mx
      else mx
    else mx
  else mx

omit [LinearOrderedField α] in
theorem foldl_set_length (l : List ℕ) (g : ℕ → ℕ) (f : ℕ → α) (m : List α) :
    (l.foldl (fun acc j => acc.set (g j) (f j)) m).length = m.length := by
  induction l generalizing m with
  | nil => rfl
  | cons a t ih => rw [List.foldl_cons, ih, List.length_set]

theorem foldl_set_getD (nz : List ℕ) (f : ℕ → α) (m : List α)
    (hpw : nz.Pairwise (· < ·)) (hb : ∀ v ∈ nz, v < m.length) :
    ∀ t ≤ nz.length, ∀ j < t,
      ((List.range t).foldl (fun acc k => acc.set (nz.getD k 0) (f k)) m).getD
        (nz.getD j 0) 0 = f j := by
  intro t
  induction t with
  | zero => intro _ j hj; cases hj
  | succ t ih =>
    intro hle j hj
    rw [List.range_succ, List.foldl_append, List.foldl_cons, List.foldl_nil]
    have hlt : t < nz.length := hle
    have hjlen : j < nz.length := lt_of_lt_of_le hj hle
    have hMlen : ((List.range t).foldl
        (fun acc k => acc.set (nz.getD k 0) (f k)) m).length = m.length :=
      foldl_set_length _ _ _ _
    rcases Nat.lt_succ_iff_lt_or_eq.mp hj with hjt | rfl
    · have hne : nz.getD t 0 ≠ nz.getD j 0 := by
        rw [List.getD_eq_getElem nz 0 hlt, List.getD_eq_getElem nz 0 hjlen]
        exact (List.pairwise_iff_getElem.mp hpw j t hjlen hlt hjt).ne.symm
      rw [List.getD_eq_getElem?_getD, List.getElem?_set_ne hne,
        ← List.getD_eq_getElem?_getD]
      exact ih (le_of_lt hlt) j hjt
    · have hbj : nz.getD j 0 < ((List.range j).foldl
          (fun acc k => acc.set (nz.getD k 0) (f k)) m).length := by
        rw [hMlen]
        exact hb _ (by rw [List.getD_eq_getElem nz 0 hjlen]; exact List.getElem_mem hjlen)
      rw [List.getD_eq_getElem _ _ (by rw [List.length_set]; exact hbj)]
      exact List.getElem_set_self _

/-- C1: when the Newton step is taken (more than one non-zero gradient
coordinate and all four guards pass), the value written back into the decision
vector at each non-zero coordinate is the refined reduced constant: its
previous value minus the corresponding entry of `H_S⁻¹ · g_S` (the hypothesis
`hinv` identifies the abstract Eigen inverse with the inverse of the
constructed reduced Hessian). -/
theorem C1_newton_writeback (finite : α → Bool) (lu : EigenLU α)
    (mx grad : List α) (hs : List (ℕ × ℕ)) (hess : List α)
    (_h2 : 2 ≤ (nonZeroIdx grad).length)
    (hG : gradGuard finite grad = true) (hL : luGuard lu = true)
    (hI : invGuard finite lu (nonZeroIdx grad).length = true)
    (hlen : grad.length ≤ mx.length)
    (_hinv : ∀ i < (nonZeroIdx grad).length, ∀ j < (nonZeroIdx grad).length,
      (∑ k ∈ Finset.range (nonZeroIdx grad).length,
        lu.inv i k * hRed hs hess (nonZeroIdx grad) k j) = if i = j then 1 else 0) :
    ∀ j < (nonZeroIdx grad).length,
      (newtonStepMulti finite lu mx grad).getD ((nonZeroIdx grad).getD j 0) 0
        = mx.getD ((nonZeroIdx grad).getD j 0) 0
          - ∑ k ∈ Finset.range (nonZeroIdx grad).length,
              lu.inv j k * grad.getD ((nonZeroIdx grad).getD k 0) 0 := by
  intro j hj
  have hpw : (nonZeroIdx grad).Pairwise (· < ·) :=
    (List.pairwise_lt_range _).filter _
  have hb : ∀ v ∈ nonZeroIdx grad, v < mx.length := by
    intro v hv
    have : v < grad.length := List.mem_range.mp (List.mem_of_mem_filter hv)
    omega
  rw [newtonStepMulti]
  simp only [hG, hL, hI, if_true]
  rw [foldl_set_getD (nonZeroIdx grad) _ mx hpw hb (nonZeroIdx grad).length le_rfl j hj]
  rw [if_pos hj]
  congr 1
  · rw [if_pos hj]
  · apply Finset.sum_congr rfl
    intro k hk
    rw [if_pos (Finset.mem_range.mp hk)]

/-- The write-back rule exercised concretely: gradient [1, 2, 0] over a
3-constant vector, identity reduced Hessian (hence identity inverse): the two
non-zero constants move by their gradient entries. -/
theorem C1_newton_writeback_witness :
    (newtonStepMulti (fun _ => true)
        (⟨true, [1, 1], fun i k => if i = k then 1 else 0⟩ : EigenLU ℚ)
        [10, 20, 30, 5] [1, 2, 0]).getD ((nonZeroIdx [(1 : ℚ), 2, 0]).getD 0 0) 0
      = ([10, 20, 30, 5] : List ℚ).getD ((nonZeroIdx [(1 : ℚ), 2, 0]).getD 0 0) 0
        - ∑ k ∈ Finset.range (nonZeroIdx [(1 : ℚ), 2, 0]).length,
            (if 0 = k then (1 : ℚ) else 0)
              * ([(1 : ℚ), 2, 0]).getD ((nonZeroIdx [(1 : ℚ), 2, 0]).getD k 0) 0 := by
  have h := C1_newton_writeback (fun _ => true)
    (⟨true, [1, 1], fun i k => if i = k then 1 else 0⟩ : EigenLU ℚ)
    [10, 20, 30, 5] [1, 2, 0] [(0, 0), (1, 0), (1, 1), (2, 0), (2, 1), (2, 2)]
    [1, 0, 1, 0, 0, 5] ?_ ?_ ?_ ?_ ?_ ?_ 0 ?_
  · exact h
  · show 2 ≤ (nonZeroIdx [(1 : ℚ), 2, 0]).length
    norm_num [nonZeroIdx, List.filter]
  · rfl
  · rfl
  · rfl
  · norm_num [nonZeroIdx, List.filter]
  · intro i hi k hk
    have hlen2 : (nonZeroIdx [(1 : ℚ), 2, 0]).length = 2 := by
      norm_num [nonZeroIdx, List.filter]
    rw [hlen2] at hi hk
    have hnz : nonZeroIdx [(1 : ℚ), 2, 0] = [0, 1] := by
      norm_num [nonZeroIdx, List.filter]
    rw [hlen2, hnz]
    have hH : ∀ a < 2, ∀ b < 2,
        hRed [(0, 0), (1, 0), (1, 1), (2, 0), (2, 1), (2, 2)]
          ([1, 0, 1, 0, 0, 5] : List ℚ) [0, 1] a b = if a = b then 1 else 0 := by
      intro a ha b hb
      interval_cases a <;> interval_cases b <;>
        norm_num [hRed, mupd, List.foldl, show List.range 6 = [0,1,2,3,4,5] from rfl]
    rw [Finset.sum_range_succ, Finset.sum_range_succ, Finset.sum_range_zero,
      hH 0 (by omega) k hk, hH 1 (by omega) k hk]
    interval_cases i <;> interval_cases k <;> norm_num
  · show 0 < (nonZeroIdx [(1 : ℚ), 2, 0]).length
    norm_num [nonZeroIdx, List.filter]

/-- C2: with more than one non-zero gradient coordinate, if any of the four
guards fails — non-finite reduced gradient entry, non-invertible reduced
Hessian, a negative U-diagonal entry, or a non-finite inverse entry — the
refinement leaves the whole decision vector exactly unchanged. -/
theorem C2_newton_guards (finite : α → Bool) (lu : EigenLU α)
    (mx grad : List α) (_h2 : 2 ≤ (nonZeroIdx grad).length)
    (hfail : ¬(gradGuard finite grad = true ∧ luGuard lu = true
      ∧ invGuard finite lu (nonZeroIdx grad).length = true)) :
    newtonStepMulti finite lu mx grad = mx := by
  rw [newtonStepMulti]
  by_cases hG : gradGuard finite grad = true
  · rw [if_pos hG]
    by_cases hL : luGuard lu = true
    · rw [if_pos hL]
      by_cases hI : invGuard finite lu (nonZeroIdx grad).length = true
      · exact absurd ⟨hG, hL, hI⟩ hfail
      · rw [if_neg hI]
    · rw [if_neg hL]
  · rw [if_neg hG]

/-- The guard fallback exercised concretely: a non-invertible factorisation
leaves the vector untouched. -/
theorem C2_newton_guards_witness :
    newtonStepMulti (fun _ => true)
        (⟨false, [1, 1], fun _ _ => 0⟩ : EigenLU ℚ) [10, 20, 30, 5] [1, 2, 0]
      = [10, 20, 30, 5] :=
  C2_newton_guards (fun _ => true) (⟨false, [1, 1], fun _ _ => 0⟩ : EigenLU ℚ)
    [10, 20, 30, 5] [1, 2, 0]
    (by norm_num [nonZeroIdx, List.filter])
    (by intro h; exact absurd h.2.1 (by norm_num [luGuard]))

end momes4cgp

end DCGP
